import Mathlib

/-!
Verification of the release-automation script (`release.py`) of the
QGIS-Plugin shared-files repository.

The Python source is embedded shallowly:

* pure string manipulation (`str.replace`, `str.strip`, `str.rstrip`,
  `str.splitlines(keepends=True)`, `str.startswith`, `str.endswith`,
  substring containment) is translated to executable Lean functions on
  `String` / `List Char`;
* the `xml.etree.ElementTree` fragment used by the script (elements with a
  tag, an ordered attribute dictionary, a text payload and a child list;
  `find`, `findall`, `SubElement`, `get`, `set`) becomes the inductive type
  `XElem` with explicit, order-preserving operations;
* in-place mutation of the XML tree becomes pure document transformation
  (the mutated node is replaced at its position in the child list);
* filesystem state is either a map from paths to file contents (`FsMap`,
  for the atomic-write routine) or an explicit trace of state-changing
  effects (`FsEffect`, for the ordering claims "error is raised before
  anything is created on disk");
* `os.walk` over a directory tree becomes `osWalk` over a mutual
  tree/forest pair (`FileTree` / `Forest`), which keeps the recursion
  structural and hence executable by `decide` / `rfl`.
-/

namespace Release

/-! ## Python string primitives -/

/-- `old.isPrefixOf l` respects list append on the right. -/
theorem isPrefixOf_append_right (n l r : List Char) (h : n.isPrefixOf l = true) :
    n.isPrefixOf (l ++ r) = true := by
  induction n generalizing l with
  | nil => simp [List.isPrefixOf]
  | cons a as ih =>
    cases l with
    | nil => simp [List.isPrefixOf] at h
    | cons b bs =>
      simp only [List.isPrefixOf, List.cons_append, Bool.and_eq_true, beq_iff_eq] at h ⊢
      exact ⟨h.1, ih bs h.2⟩

/-- Substring test on character lists: does `needle` occur inside `hay`?
Models Python's `needle in hay` on strings. -/
def subAux (needle : List Char) : List Char → Bool
  | [] => needle.isEmpty
  | c :: rest => needle.isPrefixOf (c :: rest) || subAux needle rest

/-- `strIn needle hay` models Python `needle in hay` (substring containment). -/
def strIn (needle hay : String) : Bool := subAux needle.data hay.data

theorem subAux_append_right (n l r : List Char) (h : subAux n l = true) :
    subAux n (l ++ r) = true := by
  induction l with
  | nil =>
    simp only [subAux, List.isEmpty_iff] at h
    subst h
    cases r with
    | nil => simp [subAux]
    | cons c cr => simp [subAux, List.isPrefixOf]
  | cons c rest ih =>
    simp only [subAux, Bool.or_eq_true] at h ⊢
    rcases h with h | h
    · exact Or.inl (isPrefixOf_append_right _ _ _ h)
    · exact Or.inr (ih h)

/-- If `needle` occurs in `hay` then it occurs in any right-extension of `hay`. -/
theorem strIn_of_data_append (needle hay big : String) (s : List Char)
    (hdata : big.data = hay.data ++ s) (h : strIn needle hay = true) :
    strIn needle big = true := by
  unfold strIn at h ⊢
  rw [hdata]
  exact subAux_append_right _ _ _ h

/-- Python whitespace characters, as recognised by `str.strip()` /
`str.isspace()` (the Unicode whitespace set). -/
def pyIsSpaceChar (c : Char) : Bool :=
  [' ', '\t', '\n', '\x0b', '\x0c', '\r', '\x1c',
   '\x1d', '\x1e', '\x1f', '\x85', '\xa0', '\u1680', '\u2000', '\u2001',
   '\u2002', '\u2003', '\u2004', '\u2005', '\u2006', '\u2007', '\u2008',
   '\u2009', '\u200a', '\u2028', '\u2029', '\u202f', '\u205f', '\u3000'].contains c

/-- Python `str.strip()`: remove leading and trailing whitespace. -/
def pyStrip (s : String) : String :=
  ⟨((s.data.dropWhile pyIsSpaceChar).reverse.dropWhile pyIsSpaceChar).reverse⟩

/-- Python `s.startswith(p)`. -/
def pyStartsWith (s p : String) : Bool := p.data.isPrefixOf s.data

/-- Python `s.endswith(p)`. -/
def pyEndsWith (s p : String) : Bool := p.data.isSuffixOf s.data

/-- Python `s.rstrip(c)` for a single strip character: remove every trailing
occurrence of `c`. -/
def pyRstripChar (s : String) (c : Char) : String :=
  ⟨(s.data.reverse.dropWhile (· = c)).reverse⟩

/-- Auxiliary: Python `str.replace`, non-overlapping left-to-right
replacement of every occurrence.  The fuel argument is instantiated with the
length of the subject and keeps the recursion structural. -/
def pyReplaceAux (old new : List Char) : Nat → List Char → List Char
  | _, [] => []
  | 0, l => l
  | Nat.succ fuel, c :: rest =>
      if old.isPrefixOf (c :: rest) then
        new ++ pyReplaceAux old new fuel (List.drop (old.length - 1) rest)
      else
        c :: pyReplaceAux old new fuel rest

/-- Python `s.replace(old, new)` (for non-empty `old`, the only way the
script uses it). -/
def pyReplace (s old new : String) : String :=
  ⟨pyReplaceAux old.data new.data s.data.length s.data⟩

/-- `"".join(lines)`. -/
def strJoin : List String → String
  | [] => ""
  | s :: ss => s ++ strJoin ss

/-- Characters accepted as line boundaries by Python
`str.splitlines` (with `\r\n` treated as a single boundary). -/
def pyIsLineBreakChar (c : Char) : Bool :=
  ['\n', '\r', '\x0b', '\x0c', '\x1c', '\x1d', '\x1e',
   '\x85', '\u2028', '\u2029'].contains c

/-- Core of Python `str.splitlines(keepends=True)`: split into lines, each
keeping its terminating line-break sequence; a final fragment without a
terminator is kept as an unterminated last line; the empty string yields no
lines. -/
def splitLinesAux : List Char → List Char → List (List Char)
  | [], acc => if acc = [] then [] else [acc.reverse]
  | '\r' :: '\n' :: rest, acc => (acc.reverse ++ ['\r', '\n']) :: splitLinesAux rest []
  | '\r' :: rest, acc => (acc.reverse ++ ['\r']) :: splitLinesAux rest []
  | c :: rest, acc =>
      if pyIsLineBreakChar c then (acc.reverse ++ [c]) :: splitLinesAux rest []
      else splitLinesAux rest (c :: acc)

/-- Python `content.splitlines(keepends=True)`. -/
def splitLinesKeepends (s : String) : List String :=
  (splitLinesAux s.data []).map fun l => ⟨l⟩

/-! ## URL handling (`_file_url_to_path`) -/

/-- Characters allowed in a URL scheme after the initial letter. -/
def validSchemeChar (c : Char) : Bool :=
  c.isAlphanum || c = '+' || c = '-' || c = '.'

/-- The WHATWG preprocessing `urllib.parse.urlsplit` applies to the URL
before parsing (CPython since the 2021 security releases): strip leading
C0 control and space characters, then remove every tab, carriage return
and line feed, wherever it occurs. -/
def pyUrlPreprocess (url : String) : String :=
  ⟨(url.data.dropWhile fun c => c.toNat ≤ 0x20).filter
    fun c => c ≠ '\t' && c ≠ '\r' && c ≠ '\n'⟩

/-- The scheme component produced by `urllib.parse.urlparse`: after the
WHATWG preprocessing, the text before the first `:`, lower-cased, provided
it is a well-formed scheme (leading ASCII letter, scheme characters only);
otherwise the empty string. -/
def pyUrlScheme (url : String) : String :=
  let u := (pyUrlPreprocess url).data
  let sch := u.takeWhile (· ≠ ':')
  if sch.length < u.length ∧ sch ≠ [] ∧
      (sch.headD 'a').isAlpha ∧ sch.all validSchemeChar then
    ⟨sch.map Char.toLower⟩
  else
    ""

/-- Error message raised by `_file_url_to_path` for a non-`file` scheme. -/
def fileSchemeMsg : String := "`download_url_base` must use the file:// scheme."

/-- `_file_url_to_path`: convert a `file://` URL to a local path, raising
`ReleaseScriptError` (modelled as `Except.error` carrying the message) for
any other scheme.  Percent-decoding (`unquote` / `url2pathname`) is the
identity on the plain paths this model ranges over. -/
def file_url_to_path (url : String) : Except String String :=
  if pyUrlScheme url ≠ "file" then
    Except.error fileSchemeMsg
  else
    let rest := ((pyUrlPreprocess url).data.dropWhile (· ≠ ':')).drop 1
    match rest with
    | '/' :: '/' :: r =>
        let netloc := r.takeWhile (· ≠ '/')
        let path := r.dropWhile (· ≠ '/')
        if netloc ≠ [] then Except.ok ("//" ++ (⟨netloc⟩ : String) ++ (⟨path⟩ : String))
        else Except.ok ⟨path⟩
    | r => Except.ok ⟨r⟩

/-! ## Path helpers -/

/-- `pathlib`'s `/` followed by `as_posix()` for the relative paths the
script joins: an absolute right operand wins, otherwise the components are
joined with `/`. -/
def pathJoin (a b : String) : String :=
  match b.data with
  | '/' :: _ => b
  | _ => if a = "" then b else a ++ "/" ++ b

/-- `destination_path.parent` rendered as a string: everything before the
last `/`. -/
def parentDir (p : String) : String :=
  ⟨((p.data.reverse.dropWhile (· ≠ '/')).drop 1).reverse⟩

/-! ## XML element model (`xml.etree.ElementTree` fragment) -/

/-- An XML element: tag, ordered attribute dictionary, text payload,
ordered child list.  Mirrors the `Element` objects the script builds. -/
inductive XElem where
  | mk (tag : String) (attrs : List (String × String))
       (text : Option String) (children : List XElem)

def XElem.tagOf : XElem → String
  | .mk t _ _ _ => t

def XElem.attrsOf : XElem → List (String × String)
  | .mk _ a _ _ => a

def XElem.textOf : XElem → Option String
  | .mk _ _ x _ => x

def XElem.childrenOf : XElem → List XElem
  | .mk _ _ _ c => c

/-- Replace the child list of an element. -/
def XElem.withChildren : XElem → List XElem → XElem
  | .mk t a x _, c => .mk t a x c

/-- `tag.text = value`. -/
def XElem.setText : XElem → Option String → XElem
  | .mk t a _ c, x => .mk t a x c

/-- First value bound to a key in an ordered attribute dictionary
(Python `element.get(key)`). -/
def lookupAttr (k : String) : List (String × String) → Option String
  | [] => none
  | (a, v) :: rest => if a = k then some v else lookupAttr k rest

/-- Update a key in an ordered attribute dictionary, preserving insertion
order, appending if absent (Python `dict` assignment / `element.set`). -/
def setAttrList (k v : String) : List (String × String) → List (String × String)
  | [] => [(k, v)]
  | (a, w) :: rest => if a = k then (k, v) :: rest else (a, w) :: setAttrList k v rest

/-- `element.get(key)`. -/
def XElem.attrGet (e : XElem) (k : String) : Option String :=
  lookupAttr k e.attrsOf

/-- `element.set(key, value)`. -/
def XElem.setAttr : XElem → String → String → XElem
  | .mk t a x c, k, v => .mk t (setAttrList k v a) x c

/-- `parent.find(tag)`: first direct child with the given tag. -/
def findTag (t : String) : List XElem → Option XElem
  | [] => none
  | c :: cs => if c.tagOf = t then some c else findTag t cs

/-- The text of the first child with the given tag, when there is one
(`parent.find(tag).text`). -/
def XElem.fieldText (e : XElem) (t : String) : Option String :=
  (findTag t e.childrenOf).bind XElem.textOf

/-! ## Plugin metadata record -/

/-- The `PluginMetadata` dictionary read from `metadata.txt`
(`get_plugin_metadata`). -/
structure PluginMetadata where
  plugin_package_name : String
  files_to_package : List String
  dirs_to_package : List String
  translation_dir : String
  excluded_dirs : List String
  excluded_extensions : List String
  name : String
  version : String
  changelog : String
  description : String
  qgis_minimum_version : String
  author : String
  email : String
  url_base : String

/-! ## Manifest update (`_update_xml_tag`, `_find_or_create_plugin_node`,
`_update_plugin_node_details`, `update_repository_file`) -/

/-- `_update_xml_tag` on a child list: find the first child with the given
tag and set its text, appending a fresh child (as `SubElement` does) if
none exists. -/
def updateTagChildren (t v : String) : List XElem → List XElem
  | [] => [XElem.mk t [] (some v) []]
  | c :: cs => if c.tagOf = t then c.setText (some v) :: cs else c :: updateTagChildren t v cs

/-- `_update_xml_tag(parent_node, tag_name, value)`. -/
def update_xml_tag (p : XElem) (t v : String) : XElem :=
  p.withChildren (updateTagChildren t v p.childrenOf)

/-- `_update_plugin_node_details`: populate a plugin entry with metadata,
including the derived archive file name and download URL, and the `version`
attribute mirroring the `version` child tag. -/
def update_plugin_node_details (plugin_node : XElem) (m : PluginMetadata) : XElem :=
  let node := plugin_node.setAttr "version" m.version
  let node := update_xml_tag node "version" m.version
  let node := update_xml_tag node "description" m.description
  let node := update_xml_tag node "changelog" m.changelog
  let node := update_xml_tag node "qgis_minimum_version" m.qgis_minimum_version
  let node := update_xml_tag node "author_name" m.author
  let node := update_xml_tag node "email" m.email
  let clean_plugin_name := pyReplace m.name " " "_"
  let new_zip_filename := clean_plugin_name ++ ".zip"
  let node := update_xml_tag node "file_name" new_zip_filename
  let new_url := pyRstripChar m.url_base '/' ++ "/" ++ new_zip_filename
  let node := update_xml_tag node "download_url" new_url
  node

/-- The child tags `_find_or_create_plugin_node` pre-populates on a fresh
entry. -/
def prePopulatedTags : List String :=
  ["version", "changelog", "description", "qgis_minimum_version",
   "author_name", "email", "file_name", "download_url"]

/-- The fresh entry created by `_find_or_create_plugin_node` when the
plugin has no entry yet: `<pyqgis_plugin name=...>` with empty child tags. -/
def newPluginNode (plugin_name : String) : XElem :=
  XElem.mk "pyqgis_plugin" [("name", plugin_name)] none
    (prePopulatedTags.map fun t => XElem.mk t [] none [])

/-- Does this child match `root.findall("pyqgis_plugin")` filtered by
`node.get("name") == plugin_name`? -/
def isPluginEntryFor (plugin_name : String) (c : XElem) : Bool :=
  c.tagOf = "pyqgis_plugin" && c.attrGet "name" = some plugin_name

/-- The in-place mutation performed by `update_repository_file` on the
root's child list: the first matching entry is updated where it stands
(`_find_or_create_plugin_node` returning an existing node), otherwise a
fresh pre-populated entry is appended (`SubElement`) and then updated. -/
def upsertPlugin (m : PluginMetadata) : List XElem → List XElem
  | [] => [update_plugin_node_details (newPluginNode m.name) m]
  | c :: cs =>
      if isPluginEntryFor m.name c then update_plugin_node_details c m :: cs
      else c :: upsertPlugin m cs

/-- The document transformation steps 3–4 of `update_repository_file`
perform on a loaded manifest document. -/
def update_repository_doc (root : XElem) (m : PluginMetadata) : XElem :=
  root.withChildren (upsertPlugin m root.childrenOf)

/-- First entry for a plugin name in a child list (the node
`_find_or_create_plugin_node` would return without creating). -/
def findPluginEntry (plugin_name : String) : List XElem → Option XElem
  | [] => none
  | c :: cs => if isPluginEntryFor plugin_name c then some c else findPluginEntry plugin_name cs

/-- Number of entries for a plugin name in a child list. -/
def countEntriesFor (plugin_name : String) : List XElem → Nat
  | [] => 0
  | c :: cs => (if isPluginEntryFor plugin_name c then 1 else 0) + countEntriesFor plugin_name cs

/-- Field value of the plugin's manifest entry, read the way QGIS and the
script read it (`find(tag).text` on the entry found by name). -/
def entryField (root : XElem) (plugin_name t : String) : Option String :=
  (findPluginEntry plugin_name root.childrenOf).bind fun n => n.fieldText t

/-- The `version` attribute of the plugin's manifest entry. -/
def entryVersionAttr (root : XElem) (plugin_name : String) : Option String :=
  (findPluginEntry plugin_name root.childrenOf).bind fun n => n.attrGet "version"

/-- The manifest field tags written by `_update_plugin_node_details`. -/
def manifestFieldTags : List String := prePopulatedTags

/-! ## Atomic manifest write (`_write_plugin_xml`) -/

/-- A filesystem directory as a map from path to file content. -/
def FsMap := String → Option String

/-- Point update of a filesystem map (create/overwrite with `some`,
delete with `none`). -/
def fsSet (fs : FsMap) (p : String) (v : Option String) : FsMap :=
  fun q => if q = p then v else fs q

/-- The temporary file name `tempfile.mkstemp(dir=repo_path,
prefix="plugins.xml.", suffix=".tmp")` creates next to the destination;
`salt` stands for the random part mkstemp generates. -/
def tmpNameFor (destination_path salt : String) : String :=
  parentDir destination_path ++ "/plugins.xml." ++ salt ++ ".tmp"

/-- The `ReleaseScriptError` message `_write_plugin_xml` raises on an
`OSError`; `osErr` is the text of the underlying OS error. -/
def writeFailMsg (destination_path osErr : String) : String :=
  "Failed to write/update `" ++ destination_path ++ "`. " ++
  "Check permissions on `" ++ parentDir destination_path ++ "`: " ++ osErr

/-- `_write_plugin_xml`: create a fresh temporary file in the destination's
directory, serialize into it, rename it over the destination, and remove
the temporary file on every path (the `finally` block; a no-op after a
successful rename).  `writeOk` / `renameOk` say whether `tree.write` /
`Path.replace` raise an `OSError`; `serialized` is the serialized document
text. -/
def write_plugin_xml (serialized destination_path salt osErr : String)
    (writeOk renameOk : Bool) (fs : FsMap) : Except String Unit × FsMap :=
  let tmp := tmpNameFor destination_path salt
  let fs1 := fsSet fs tmp (some "")
  if writeOk then
    let fs2 := fsSet fs1 tmp (some serialized)
    if renameOk then
      let fs3 := fsSet (fsSet fs2 destination_path (some serialized)) tmp none
      (Except.ok (), fsSet fs3 tmp none)
    else
      (Except.error (writeFailMsg destination_path osErr), fsSet fs2 tmp none)
  else
    (Except.error (writeFailMsg destination_path osErr), fsSet fs1 tmp none)

/-! ## Packaging (`_get_clean_metadata_content`, `_add_files_to_zip`,
`_add_directories_to_zip`, `package_plugin`) -/

/-- `_get_clean_metadata_content`: split `metadata.txt` into lines keeping
the line endings, and replace every line whose stripped form starts with
`name=` by `name=<plugin_name>` with a `\n` terminator; join the rest back
unchanged. -/
def get_clean_metadata_content (plugin_name original_content : String) : String :=
  let lines := splitLinesKeepends original_content
  let new_lines := lines.map fun line =>
    if pyStartsWith (pyStrip line) "name=" then "name=" ++ plugin_name ++ "\n" else line
  strJoin new_lines

/-- Provenance of a zip entry's bytes: a file read from disk
(`zipf.write`) or in-memory content (`zipf.writestr`). -/
inductive ZipSrc where
  | fromDisk (path : String)
  | literal (content : String)
  deriving DecidableEq

/-- `_add_files_to_zip`: the `(arcname, source)` entries written and the
file names warned about (listed files absent from disk), in list order.
`fileExists` models `Path.exists` for the run. -/
def add_files_to_zip (files : List String) (plugin_zip_dir : String)
    (clean_metadata_content : String) (fileExists : String → Bool) :
    List (String × ZipSrc) × List String :=
  match files with
  | [] => ([], [])
  | f :: fs =>
      let r := add_files_to_zip fs plugin_zip_dir clean_metadata_content fileExists
      if f = "metadata.txt" then
        ((pathJoin plugin_zip_dir "metadata.txt", ZipSrc.literal clean_metadata_content) :: r.1,
         r.2)
      else if fileExists f then
        ((pathJoin plugin_zip_dir f, ZipSrc.fromDisk f) :: r.1, r.2)
      else
        (r.1, f :: r.2)

mutual
/-- A directory tree on disk: the files directly in a directory and its
named subdirectories (a mutual tree/forest pair, so that every recursion
over it is structural and executable). -/
inductive FileTree where
  | node (files : List String) (subdirs : Forest)
/-- The named subdirectories of a directory, in listing order. -/
inductive Forest where
  | nil
  | cons (name : String) (tree : FileTree) (rest : Forest)
end

mutual
/-- `os.walk(dir_path)`, top-down: every visited directory paired with the
files directly inside it, the subdirectories visited in order. -/
def osWalk (path : String) : FileTree → List (String × List String)
  | FileTree.node files subs => (path, files) :: walkForest path subs

/-- `os.walk` continued over the subdirectories of a directory at `path`. -/
def walkForest (path : String) : Forest → List (String × List String)
  | Forest.nil => []
  | Forest.cons name t rest => osWalk (path ++ "/" ++ name) t ++ walkForest path rest
end

/-- The `(root, file)` pairs `_add_directories_to_zip` writes: walk every
listed directory that exists (`dirTree` models `Path.is_dir` / the disk
layout), skip every walked directory whose path contains one of the
excluded substrings, and skip every file whose name ends with one of the
excluded extensions. -/
def addDirPairs (dirs excluded_dirs excluded_extensions : List String)
    (dirTree : String → Option FileTree) : List (String × String) :=
  dirs.flatMap fun d =>
    match dirTree d with
    | none => []
    | some t =>
        (osWalk d t).flatMap fun rf =>
          if excluded_dirs.any fun e => strIn e rf.1 then []
          else rf.2.filterMap fun f =>
            if excluded_extensions.any (fun ext => pyEndsWith f ext) then none
            else some (rf.1, f)

/-- `_add_directories_to_zip`: the zip entries written for the directory
part of the manifest, as `(arcname, source)` pairs. -/
def add_directories_to_zip (dirs : List String) (plugin_zip_dir : String)
    (excluded_dirs excluded_extensions : List String)
    (dirTree : String → Option FileTree) : List (String × ZipSrc) :=
  (addDirPairs dirs excluded_dirs excluded_extensions dirTree).map fun rf =>
    (pathJoin plugin_zip_dir (rf.1 ++ "/" ++ rf.2), ZipSrc.fromDisk (rf.1 ++ "/" ++ rf.2))

/-- The `ReleaseScriptError` message for the package-name mismatch check in
`package_plugin`. -/
def nameMismatchMsg (plugin_zip_dir clean_plugin_name : String) : String :=
  "Name mismatch: The hardcoded 'plugin_zip_dir' ('" ++ plugin_zip_dir ++
  "') must match the 'name' from 'metadata.txt' with spaces replaced by underscores ('" ++
  clean_plugin_name ++ "')."

/-- State-changing filesystem actions of the release pipeline, in program
order (reads are not state changes and are not traced). -/
inductive FsEffect where
  | mkdir (path : String)
  | writeManifest (path : String)
  | zipCreate (path : String)
  | zipEntry (arcname : String)
  deriving DecidableEq

/-- `package_plugin` as a trace of state-changing effects plus the raised
`ReleaseScriptError`, if any: validate the package name, rewrite
`metadata.txt` in memory, resolve the `file://` URL, then create the
archive and write its entries.  `metadataContent` is the text of
`metadata.txt` read from disk. -/
def package_plugin_trace (m : PluginMetadata) (metadataContent : String)
    (fileExists : String → Bool) (dirTree : String → Option FileTree) :
    List FsEffect × Option String :=
  let clean_plugin_name := pyReplace m.name " " "_"
  let plugin_zip_dir := m.plugin_package_name
  if plugin_zip_dir ≠ clean_plugin_name then
    ([], some (nameMismatchMsg plugin_zip_dir clean_plugin_name))
  else
    let clean_metadata_content := get_clean_metadata_content m.name metadataContent
    match file_url_to_path m.url_base with
    | Except.error e => ([], some e)
    | Except.ok shared_repo_path =>
        let zip_path := pathJoin shared_repo_path (clean_plugin_name ++ ".zip")
        let fileEntries :=
          (add_files_to_zip m.files_to_package plugin_zip_dir clean_metadata_content
            fileExists).1
        let dirEntries :=
          add_directories_to_zip m.dirs_to_package plugin_zip_dir m.excluded_dirs
            m.excluded_extensions dirTree
        (FsEffect.zipCreate zip_path ::
          (fileEntries ++ dirEntries).map (fun e => FsEffect.zipEntry e.1), none)

/-- `update_repository_file` as a trace of state-changing effects plus the
raised error, if any: resolve the `file://` URL (the first step of
`_get_repository_path`, which raises before touching the filesystem), then
create the repository directory and atomically write the updated document.
The in-memory document transformation between those two effects is pure
(`update_repository_doc` applied to the loaded or freshly created root,
which `existing` models) and is specified separately. -/
def update_repository_file_trace (m : PluginMetadata) (_existing : Option XElem) :
    List FsEffect × Option String :=
  match file_url_to_path m.url_base with
  | Except.error e => ([], some e)
  | Except.ok shared_repo_path =>
      let master_xml_path := pathJoin shared_repo_path "plugins.xml"
      ([FsEffect.mkdir shared_repo_path, FsEffect.writeManifest master_xml_path], none)

/-! ## Release orchestration (`run_release_process`) -/

/-- The release name `run_release_process` derives: remove every occurrence
of the `"(dev)"` marker, then strip surrounding whitespace. -/
def releaseName (original_name : String) : String :=
  pyStrip (pyReplace original_name "(dev)" "")

/-- The error message for an empty derived release name. -/
def emptyNameMsg : String :=
  "Plugin name cannot be empty after removing '(dev)' marker."

/-- The name-normalisation prefix of `run_release_process`: derive the
release name, fail if it is empty, and substitute it into the in-memory
metadata when it differs from the configured name. -/
def deriveReleaseMetadata (m : PluginMetadata) : Except String PluginMetadata :=
  let release_name := releaseName m.name
  if release_name = "" then Except.error emptyNameMsg
  else if m.name ≠ release_name then Except.ok { m with name := release_name }
  else Except.ok m

/-! ## Lemmas: XML element operations -/

theorem tagOf_setText (c : XElem) (x : Option String) : (c.setText x).tagOf = c.tagOf := by
  cases c; rfl

theorem textOf_setText (c : XElem) (x : Option String) : (c.setText x).textOf = x := by
  cases c; rfl

theorem attrsOf_setText (c : XElem) (x : Option String) : (c.setText x).attrsOf = c.attrsOf := by
  cases c; rfl

theorem childrenOf_withChildren (e : XElem) (l : List XElem) :
    (e.withChildren l).childrenOf = l := by
  cases e; rfl

theorem tagOf_withChildren (e : XElem) (l : List XElem) :
    (e.withChildren l).tagOf = e.tagOf := by
  cases e; rfl

theorem attrsOf_withChildren (e : XElem) (l : List XElem) :
    (e.withChildren l).attrsOf = e.attrsOf := by
  cases e; rfl

theorem tagOf_setAttr (e : XElem) (k v : String) : (e.setAttr k v).tagOf = e.tagOf := by
  cases e; rfl

theorem childrenOf_setAttr (e : XElem) (k v : String) :
    (e.setAttr k v).childrenOf = e.childrenOf := by
  cases e; rfl

theorem attrsOf_setAttr (e : XElem) (k v : String) :
    (e.setAttr k v).attrsOf = setAttrList k v e.attrsOf := by
  cases e; rfl

theorem lookupAttr_setAttrList_same (k v : String) (l : List (String × String)) :
    lookupAttr k (setAttrList k v l) = some v := by
  induction l with
  | nil => simp [setAttrList, lookupAttr]
  | cons p rest ih =>
    obtain ⟨a, w⟩ := p
    by_cases h : a = k
    · subst h; simp [setAttrList, lookupAttr]
    · simp [setAttrList, lookupAttr, h, ih]

theorem lookupAttr_setAttrList_other (k v q : String) (l : List (String × String))
    (h : q ≠ k) : lookupAttr q (setAttrList k v l) = lookupAttr q l := by
  have hkq : ¬ (k = q) := fun hh => h hh.symm
  induction l with
  | nil => simp [setAttrList, lookupAttr, hkq]
  | cons p rest ih =>
    obtain ⟨a, w⟩ := p
    by_cases ha : a = k
    · subst ha
      simp only [setAttrList, if_pos rfl, lookupAttr]
      rw [if_neg hkq, if_neg hkq]
    · by_cases hq : a = q
      · subst hq; simp [setAttrList, ha, lookupAttr]
      · simp [setAttrList, ha, lookupAttr, hq, ih]

theorem attrGet_setAttr_same (e : XElem) (k v : String) :
    (e.setAttr k v).attrGet k = some v := by
  unfold XElem.attrGet
  rw [attrsOf_setAttr]
  exact lookupAttr_setAttrList_same k v e.attrsOf

theorem attrGet_setAttr_other (e : XElem) (k v q : String) (h : q ≠ k) :
    (e.setAttr k v).attrGet q = e.attrGet q := by
  unfold XElem.attrGet
  rw [attrsOf_setAttr]
  exact lookupAttr_setAttrList_other k v q e.attrsOf h

theorem fieldText_setAttr (e : XElem) (k v t : String) :
    (e.setAttr k v).fieldText t = e.fieldText t := by
  unfold XElem.fieldText
  rw [childrenOf_setAttr]

theorem tagOf_update_xml_tag (p : XElem) (t v : String) :
    (update_xml_tag p t v).tagOf = p.tagOf := by
  unfold update_xml_tag; rw [tagOf_withChildren]

theorem attrGet_update_xml_tag (p : XElem) (t v k : String) :
    (update_xml_tag p t v).attrGet k = p.attrGet k := by
  unfold update_xml_tag XElem.attrGet
  rw [attrsOf_withChildren]

theorem findTag_updateTagChildren_same (t v : String) (cs : List XElem) :
    (findTag t (updateTagChildren t v cs)).bind XElem.textOf = some v := by
  induction cs with
  | nil => simp [updateTagChildren, findTag, XElem.tagOf, XElem.textOf]
  | cons c rest ih =>
    by_cases h : c.tagOf = t
    · simp [updateTagChildren, h, findTag, tagOf_setText, textOf_setText]
    · simp [updateTagChildren, h, findTag, ih]

theorem findTag_updateTagChildren_other (t v u : String) (cs : List XElem) (h : u ≠ t) :
    findTag u (updateTagChildren t v cs) = findTag u cs := by
  have htu : ¬ (t = u) := fun hh => h hh.symm
  induction cs with
  | nil => simp [updateTagChildren, findTag, XElem.tagOf, htu]
  | cons c rest ih =>
    by_cases hc : c.tagOf = t
    · have hcu : ¬ (c.tagOf = u) := fun hh => h (hh.symm.trans hc)
      rw [updateTagChildren, if_pos hc, findTag, findTag, tagOf_setText,
          if_neg hcu, if_neg hcu]
    · rw [updateTagChildren, if_neg hc]
      by_cases hcu : c.tagOf = u
      · rw [findTag, findTag, if_pos hcu, if_pos hcu]
      · rw [findTag, findTag, if_neg hcu, if_neg hcu, ih]

theorem fieldText_update_xml_tag_same (p : XElem) (t v : String) :
    (update_xml_tag p t v).fieldText t = some v := by
  unfold update_xml_tag XElem.fieldText
  rw [childrenOf_withChildren]
  exact findTag_updateTagChildren_same t v p.childrenOf

theorem fieldText_update_xml_tag_other (p : XElem) (t v u : String) (h : u ≠ t) :
    (update_xml_tag p t v).fieldText u = p.fieldText u := by
  unfold update_xml_tag XElem.fieldText
  rw [childrenOf_withChildren, findTag_updateTagChildren_other t v u p.childrenOf h]

/-! ## Lemmas: `_update_plugin_node_details` final field values -/

theorem upd_details_version (n : XElem) (m : PluginMetadata) :
    (update_plugin_node_details n m).fieldText "version" = some m.version := by
  simp only [update_plugin_node_details]
  rw [fieldText_update_xml_tag_other _ _ _ _ (by decide),
      fieldText_update_xml_tag_other _ _ _ _ (by decide),
      fieldText_update_xml_tag_other _ _ _ _ (by decide),
      fieldText_update_xml_tag_other _ _ _ _ (by decide),
      fieldText_update_xml_tag_other _ _ _ _ (by decide),
      fieldText_update_xml_tag_other _ _ _ _ (by decide),
      fieldText_update_xml_tag_other _ _ _ _ (by decide),
      fieldText_update_xml_tag_same]

theorem upd_details_description (n : XElem) (m : PluginMetadata) :
    (update_plugin_node_details n m).fieldText "description" = some m.description := by
  simp only [update_plugin_node_details]
  rw [fieldText_update_xml_tag_other _ _ _ _ (by decide),
      fieldText_update_xml_tag_other _ _ _ _ (by decide),
      fieldText_update_xml_tag_other _ _ _ _ (by decide),
      fieldText_update_xml_tag_other _ _ _ _ (by decide),
      fieldText_update_xml_tag_other _ _ _ _ (by decide),
      fieldText_update_xml_tag_other _ _ _ _ (by decide),
      fieldText_update_xml_tag_same]

theorem upd_details_changelog (n : XElem) (m : PluginMetadata) :
    (update_plugin_node_details n m).fieldText "changelog" = some m.changelog := by
  simp only [update_plugin_node_details]
  rw [fieldText_update_xml_tag_other _ _ _ _ (by decide),
      fieldText_update_xml_tag_other _ _ _ _ (by decide),
      fieldText_update_xml_tag_other _ _ _ _ (by decide),
      fieldText_update_xml_tag_other _ _ _ _ (by decide),
      fieldText_update_xml_tag_other _ _ _ _ (by decide),
      fieldText_update_xml_tag_same]

theorem upd_details_qgis_minimum_version (n : XElem) (m : PluginMetadata) :
    (update_plugin_node_details n m).fieldText "qgis_minimum_version" =
      some m.qgis_minimum_version := by
  simp only [update_plugin_node_details]
  rw [fieldText_update_xml_tag_other _ _ _ _ (by decide),
      fieldText_update_xml_tag_other _ _ _ _ (by decide),
      fieldText_update_xml_tag_other _ _ _ _ (by decide),
      fieldText_update_xml_tag_other _ _ _ _ (by decide),
      fieldText_update_xml_tag_same]

theorem upd_details_author_name (n : XElem) (m : PluginMetadata) :
    (update_plugin_node_details n m).fieldText "author_name" = some m.author := by
  simp only [update_plugin_node_details]
  rw [fieldText_update_xml_tag_other _ _ _ _ (by decide),
      fieldText_update_xml_tag_other _ _ _ _ (by decide),
      fieldText_update_xml_tag_other _ _ _ _ (by decide),
      fieldText_update_xml_tag_same]

theorem upd_details_email (n : XElem) (m : PluginMetadata) :
    (update_plugin_node_details n m).fieldText "email" = some m.email := by
  simp only [update_plugin_node_details]
  rw [fieldText_update_xml_tag_other _ _ _ _ (by decide),
      fieldText_update_xml_tag_other _ _ _ _ (by decide),
      fieldText_update_xml_tag_same]

theorem upd_details_file_name (n : XElem) (m : PluginMetadata) :
    (update_plugin_node_details n m).fieldText "file_name" =
      some (pyReplace m.name " " "_" ++ ".zip") := by
  simp only [update_plugin_node_details]
  rw [fieldText_update_xml_tag_other _ _ _ _ (by decide),
      fieldText_update_xml_tag_same]

theorem upd_details_download_url (n : XElem) (m : PluginMetadata) :
    (update_plugin_node_details n m).fieldText "download_url" =
      some (pyRstripChar m.url_base '/' ++ "/" ++ (pyReplace m.name " " "_" ++ ".zip")) := by
  simp only [update_plugin_node_details]
  rw [fieldText_update_xml_tag_same]

theorem upd_details_version_attr (n : XElem) (m : PluginMetadata) :
    (update_plugin_node_details n m).attrGet "version" = some m.version := by
  simp only [update_plugin_node_details]
  rw [attrGet_update_xml_tag, attrGet_update_xml_tag, attrGet_update_xml_tag,
      attrGet_update_xml_tag, attrGet_update_xml_tag, attrGet_update_xml_tag,
      attrGet_update_xml_tag, attrGet_update_xml_tag, attrGet_setAttr_same]

theorem upd_details_tagOf (n : XElem) (m : PluginMetadata) :
    (update_plugin_node_details n m).tagOf = n.tagOf := by
  simp only [update_plugin_node_details]
  rw [tagOf_update_xml_tag, tagOf_update_xml_tag, tagOf_update_xml_tag,
      tagOf_update_xml_tag, tagOf_update_xml_tag, tagOf_update_xml_tag,
      tagOf_update_xml_tag, tagOf_update_xml_tag, tagOf_setAttr]

theorem upd_details_name_attr (n : XElem) (m : PluginMetadata) :
    (update_plugin_node_details n m).attrGet "name" = n.attrGet "name" := by
  simp only [update_plugin_node_details]
  rw [attrGet_update_xml_tag, attrGet_update_xml_tag, attrGet_update_xml_tag,
      attrGet_update_xml_tag, attrGet_update_xml_tag, attrGet_update_xml_tag,
      attrGet_update_xml_tag, attrGet_update_xml_tag,
      attrGet_setAttr_other _ _ _ _ (by decide)]

/-! ## Lemmas: `upsertPlugin` -/

theorem isPluginEntryFor_update_details (nm : String) (c : XElem) (m : PluginMetadata) :
    isPluginEntryFor nm (update_plugin_node_details c m) = isPluginEntryFor nm c := by
  unfold isPluginEntryFor
  rw [upd_details_tagOf, upd_details_name_attr]

theorem isPluginEntryFor_newPluginNode (nm : String) :
    isPluginEntryFor nm (newPluginNode nm) = true := by
  simp [isPluginEntryFor, newPluginNode, XElem.tagOf, XElem.attrGet, XElem.attrsOf,
    lookupAttr]

/-- Re-running the upsert keeps exactly one entry for the plugin when the
input satisfies the at-most-one invariant. -/
theorem countEntriesFor_upsertPlugin (m : PluginMetadata) (cs : List XElem)
    (h : countEntriesFor m.name cs ≤ 1) :
    countEntriesFor m.name (upsertPlugin m cs) = 1 := by
  induction cs with
  | nil =>
    simp [upsertPlugin, countEntriesFor, isPluginEntryFor_update_details,
      isPluginEntryFor_newPluginNode]
  | cons c rest ih =>
    by_cases hc : isPluginEntryFor m.name c
    · rw [upsertPlugin, if_pos hc, countEntriesFor,
        isPluginEntryFor_update_details, if_pos hc]
      rw [countEntriesFor, if_pos hc] at h
      omega
    · rw [upsertPlugin, if_neg hc, countEntriesFor, if_neg hc]
      rw [countEntriesFor, if_neg hc] at h
      simpa using ih (by simpa using h)

/-- The entry found after an upsert is `_update_plugin_node_details` applied
to some base node (the pre-existing entry or a fresh pre-populated one). -/
theorem findPluginEntry_upsertPlugin (m : PluginMetadata) (cs : List XElem) :
    ∃ b, findPluginEntry m.name (upsertPlugin m cs) =
      some (update_plugin_node_details b m) := by
  induction cs with
  | nil =>
    refine ⟨newPluginNode m.name, ?_⟩
    rw [upsertPlugin, findPluginEntry,
      if_pos (by rw [isPluginEntryFor_update_details]; exact isPluginEntryFor_newPluginNode m.name)]
  | cons c rest ih =>
    by_cases hc : isPluginEntryFor m.name c
    · refine ⟨c, ?_⟩
      rw [upsertPlugin, if_pos hc, findPluginEntry,
        if_pos (by rw [isPluginEntryFor_update_details]; exact hc)]
    · obtain ⟨b, hb⟩ := ih
      refine ⟨b, ?_⟩
      rw [upsertPlugin, if_neg hc, findPluginEntry, if_neg hc, hb]

/-- Children that are not the updated plugin's entry keep their position and
value across an upsert. -/
theorem upsertPlugin_frame (m : PluginMetadata) (cs : List XElem) (j : Nat) (b : XElem)
    (hj : cs[j]? = some b) (hb : isPluginEntryFor m.name b = false) :
    (upsertPlugin m cs)[j]? = some b := by
  induction cs generalizing j with
  | nil => simp at hj
  | cons c rest ih =>
    by_cases hc : isPluginEntryFor m.name c
    · rw [upsertPlugin, if_pos hc]
      cases j with
      | zero =>
        simp only [List.getElem?_cons_zero, Option.some.injEq] at hj
        subst hj
        rw [hb] at hc
        exact absurd hc (by simp)
      | succ j' =>
        simpa using (by simpa using hj : rest[j']? = some b)
    · rw [upsertPlugin, if_neg hc]
      cases j with
      | zero => simpa using hj
      | succ j' => simpa using ih j' (by simpa using hj)

/-! ## Claim C6 -/

/-- Claim C6: after `_update_plugin_node_details` runs on a plugin entry,
the entry's `file_name` child text is the plugin name with spaces replaced
by underscores followed by `.zip`, its `download_url` child text is the
distribution base URL with trailing slashes stripped, then `/`, then that
file name, and the entry's `version` attribute equals the text of its
`version` child tag. -/
theorem c6_update_plugin_node_details_fields (node : XElem) (m : PluginMetadata) :
    (update_plugin_node_details node m).fieldText "file_name"
        = some (pyReplace m.name " " "_" ++ ".zip")
    ∧ (update_plugin_node_details node m).fieldText "download_url"
        = some (pyRstripChar m.url_base '/' ++ "/" ++ (pyReplace m.name " " "_" ++ ".zip"))
    ∧ (update_plugin_node_details node m).attrGet "version"
        = (update_plugin_node_details node m).fieldText "version" := by
  refine ⟨upd_details_file_name node m, upd_details_download_url node m, ?_⟩
  rw [upd_details_version_attr, upd_details_version]

/-! ## Claim C2 -/

/-- Claim C2: running the manifest update twice with identical metadata,
the second run on the document produced by the first, yields a document
with exactly one `pyqgis_plugin` entry for the plugin's name, and the
entry's `version` attribute and every manifest field value are equal after
both runs.  The hypothesis is the documented manifest invariant: at most
one entry per plugin name in the starting document. -/
theorem c2_update_repository_doc_idempotent (root : XElem) (m : PluginMetadata)
    (h : countEntriesFor m.name root.childrenOf ≤ 1) :
    countEntriesFor m.name
        (update_repository_doc (update_repository_doc root m) m).childrenOf = 1
    ∧ (findPluginEntry m.name
        (update_repository_doc (update_repository_doc root m) m).childrenOf).isSome = true
    ∧ entryVersionAttr (update_repository_doc (update_repository_doc root m) m) m.name
        = entryVersionAttr (update_repository_doc root m) m.name
    ∧ ∀ t ∈ manifestFieldTags,
        entryField (update_repository_doc (update_repository_doc root m) m) m.name t
          = entryField (update_repository_doc root m) m.name t := by
  obtain ⟨b1, hb1⟩ := findPluginEntry_upsertPlugin m root.childrenOf
  obtain ⟨b2, hb2⟩ :=
    findPluginEntry_upsertPlugin m (update_repository_doc root m).childrenOf
  have hc1 : countEntriesFor m.name (update_repository_doc root m).childrenOf = 1 := by
    rw [update_repository_doc, childrenOf_withChildren]
    exact countEntriesFor_upsertPlugin m _ h
  have hfind1 : findPluginEntry m.name (update_repository_doc root m).childrenOf
      = some (update_plugin_node_details b1 m) := by
    rw [update_repository_doc, childrenOf_withChildren]
    exact hb1
  have houter : (update_repository_doc (update_repository_doc root m) m).childrenOf
      = upsertPlugin m (update_repository_doc root m).childrenOf := by
    conv_lhs => rw [update_repository_doc]
    rw [childrenOf_withChildren]
  refine ⟨?_, ?_, ?_, ?_⟩
  · rw [houter]
    exact countEntriesFor_upsertPlugin m _ (le_of_eq hc1)
  · rw [houter, hb2]
    rfl
  · unfold entryVersionAttr
    rw [houter, hb2, hfind1, Option.some_bind, Option.some_bind,
        upd_details_version_attr, upd_details_version_attr]
  · intro t ht
    unfold entryField
    rw [houter, hb2, hfind1, Option.some_bind, Option.some_bind]
    fin_cases ht
    · rw [upd_details_version, upd_details_version]
    · rw [upd_details_changelog, upd_details_changelog]
    · rw [upd_details_description, upd_details_description]
    · rw [upd_details_qgis_minimum_version, upd_details_qgis_minimum_version]
    · rw [upd_details_author_name, upd_details_author_name]
    · rw [upd_details_email, upd_details_email]
    · rw [upd_details_file_name, upd_details_file_name]
    · rw [upd_details_download_url, upd_details_download_url]

/-- Concrete metadata used to witness C2. -/
def mC2 : PluginMetadata :=
  ⟨"Demo", [], [], "i18n", [], [], "Demo", "1.2.0", "fixes", "desc", "3.28",
   "Auth", "auth@example.com", "file:///srv/repo/"⟩

/-- Concrete starting manifest used to witness C2 (one unrelated entry). -/
def rootC2 : XElem :=
  XElem.mk "plugins" [] none
    [XElem.mk "pyqgis_plugin" [("name", "Other"), ("version", "0.1")] none []]

theorem c2_witness :
    countEntriesFor mC2.name rootC2.childrenOf ≤ 1
    ∧ countEntriesFor mC2.name
        (update_repository_doc (update_repository_doc rootC2 mC2) mC2).childrenOf = 1
    ∧ entryVersionAttr (update_repository_doc (update_repository_doc rootC2 mC2) mC2)
        mC2.name = entryVersionAttr (update_repository_doc rootC2 mC2) mC2.name
    ∧ entryField (update_repository_doc (update_repository_doc rootC2 mC2) mC2)
        mC2.name "version"
        = entryField (update_repository_doc rootC2 mC2) mC2.name "version" :=
  ⟨by decide,
   (c2_update_repository_doc_idempotent rootC2 mC2 (by decide)).1,
   (c2_update_repository_doc_idempotent rootC2 mC2 (by decide)).2.2.1,
   (c2_update_repository_doc_idempotent rootC2 mC2 (by decide)).2.2.2 "version" (by decide)⟩

/-! ## Claim C7 -/

/-- Claim C7: updating the manifest for plugin A leaves the entry of any
other plugin B — its position, attributes and all child field values —
unchanged in the resulting document. -/
theorem c7_update_repository_doc_frame (root : XElem) (m : PluginMetadata) (j : Nat)
    (b : XElem) (bName : String)
    (hj : root.childrenOf[j]? = some b)
    (htag : b.tagOf = "pyqgis_plugin")
    (hname : b.attrGet "name" = some bName)
    (hne : bName ≠ m.name) :
    (update_repository_doc root m).childrenOf[j]? = some b := by
  have hb : isPluginEntryFor m.name b = false := by
    simp [isPluginEntryFor, htag, hname, hne]
  rw [update_repository_doc, childrenOf_withChildren]
  exact upsertPlugin_frame m root.childrenOf j b hj hb

/-- Concrete metadata used to witness C7 (updates plugin "A"). -/
def mC7 : PluginMetadata :=
  ⟨"A", [], [], "i18n", [], [], "A", "2.0", "log", "d", "3.28",
   "Auth", "auth@example.com", "file:///srv/repo/"⟩

/-- Concrete entry for plugin "B" used to witness C7. -/
def nodeB : XElem :=
  XElem.mk "pyqgis_plugin" [("name", "B"), ("version", "9.9")] none
    [XElem.mk "version" [] (some "9.9") []]

/-- Concrete manifest with entries for "A" and "B" used to witness C7. -/
def rootC7 : XElem :=
  XElem.mk "plugins" [] none
    [XElem.mk "pyqgis_plugin" [("name", "A")] none [], nodeB]

theorem c7_witness :
    rootC7.childrenOf[1]? = some nodeB
    ∧ nodeB.tagOf = "pyqgis_plugin"
    ∧ nodeB.attrGet "name" = some "B"
    ∧ "B" ≠ mC7.name
    ∧ (update_repository_doc rootC7 mC7).childrenOf[1]? = some nodeB :=
  ⟨rfl, rfl, rfl, by decide,
   c7_update_repository_doc_frame rootC7 mC7 1 nodeB "B" rfl rfl rfl (by decide)⟩

/-! ## Claim C5 -/

/-- Claim C5: `run_release_process` derives the release name by removing the
`"(dev)"` marker and surrounding whitespace from the configured plugin name;
when the derived name is empty the run fails with a domain error, and when
it differs from the original the in-memory metadata name is replaced by it. -/
theorem c5_release_name_derivation (m : PluginMetadata) :
    (releaseName m.name = "" → deriveReleaseMetadata m = Except.error emptyNameMsg)
    ∧ (releaseName m.name ≠ "" → releaseName m.name ≠ m.name →
        deriveReleaseMetadata m = Except.ok { m with name := releaseName m.name }) := by
  constructor
  · intro h
    simp only [deriveReleaseMetadata]
    rw [if_pos h]
  · intro h1 h2
    simp only [deriveReleaseMetadata]
    rw [if_neg h1, if_pos (Ne.symm h2)]

/-- Concrete metadata whose derived release name is empty (C5 witness). -/
def mC5a : PluginMetadata :=
  ⟨"X", [], [], "i18n", [], [], "  (dev) ", "1.0", "c", "d", "3.28",
   "Auth", "auth@example.com", "file:///srv/repo"⟩

/-- Concrete metadata carrying a development marker (C5 witness). -/
def mC5b : PluginMetadata :=
  ⟨"Demo", [], [], "i18n", [], [], "Demo (dev)", "1.2.0", "c", "d", "3.28",
   "Auth", "auth@example.com", "file:///srv/repo"⟩

theorem c5_witness :
    releaseName mC5a.name = ""
    ∧ deriveReleaseMetadata mC5a = Except.error emptyNameMsg
    ∧ releaseName mC5b.name ≠ ""
    ∧ releaseName mC5b.name ≠ mC5b.name
    ∧ deriveReleaseMetadata mC5b = Except.ok { mC5b with name := releaseName mC5b.name } :=
  ⟨by decide,
   (c5_release_name_derivation mC5a).1 (by decide),
   by decide,
   by decide,
   (c5_release_name_derivation mC5b).2 (by decide) (by decide)⟩

/-! ## Claim C1 -/

/-- Claim C1: `_write_plugin_xml` serializes into a temporary file in the
destination's own directory and renames it over the destination; on an OS
error during serialization or rename it raises a `ReleaseScriptError` and
leaves the pre-existing destination content unchanged, and on both the
success and the error path the temporary file is removed. -/
theorem c1_write_plugin_xml_atomic (serialized destination_path salt osErr : String)
    (writeOk renameOk : Bool) (fs : FsMap)
    (h : tmpNameFor destination_path salt ≠ destination_path) :
    (write_plugin_xml serialized destination_path salt osErr writeOk renameOk fs).2
        (tmpNameFor destination_path salt) = none
    ∧ (writeOk = true → renameOk = true →
        (write_plugin_xml serialized destination_path salt osErr writeOk renameOk fs).1
            = Except.ok ()
        ∧ (write_plugin_xml serialized destination_path salt osErr writeOk renameOk fs).2
            destination_path = some serialized)
    ∧ (¬ (writeOk = true ∧ renameOk = true) →
        (write_plugin_xml serialized destination_path salt osErr writeOk renameOk fs).1
            = Except.error (writeFailMsg destination_path osErr)
        ∧ (write_plugin_xml serialized destination_path salt osErr writeOk renameOk fs).2
            destination_path = fs destination_path) := by
  have h' : destination_path ≠ tmpNameFor destination_path salt := Ne.symm h
  cases writeOk <;> cases renameOk <;>
    simp [write_plugin_xml, fsSet, h, h']

/-- Concrete pre-existing repository state used to witness C1. -/
def fsC1 : FsMap :=
  fun p => if p = "/srv/repo/plugins.xml" then some "<plugins><old /></plugins>" else none

theorem c1_witness :
    tmpNameFor "/srv/repo/plugins.xml" "k3x" ≠ "/srv/repo/plugins.xml"
    ∧ (write_plugin_xml "<plugins />" "/srv/repo/plugins.xml" "k3x" "EACCES"
        false false fsC1).2 (tmpNameFor "/srv/repo/plugins.xml" "k3x") = none
    ∧ (write_plugin_xml "<plugins />" "/srv/repo/plugins.xml" "k3x" "EACCES"
        false false fsC1).1 = Except.error (writeFailMsg "/srv/repo/plugins.xml" "EACCES")
    ∧ (write_plugin_xml "<plugins />" "/srv/repo/plugins.xml" "k3x" "EACCES"
        false false fsC1).2 "/srv/repo/plugins.xml" = fsC1 "/srv/repo/plugins.xml" :=
  ⟨by decide,
   (c1_write_plugin_xml_atomic "<plugins />" "/srv/repo/plugins.xml" "k3x" "EACCES"
     false false fsC1 (by decide)).1,
   ((c1_write_plugin_xml_atomic "<plugins />" "/srv/repo/plugins.xml" "k3x" "EACCES"
     false false fsC1 (by decide)).2.2 (by simp)).1,
   ((c1_write_plugin_xml_atomic "<plugins />" "/srv/repo/plugins.xml" "k3x" "EACCES"
     false false fsC1 (by decide)).2.2 (by simp)).2⟩

/-! ## Claim C3 -/

/-- Claim C3: when the configured `plugin_package_name` differs from the
plugin name with spaces replaced by underscores, `package_plugin` raises a
`ReleaseScriptError` before any zip archive is opened or created (the
effect trace is empty, so no partial archive is left on disk). -/
theorem c3_package_plugin_name_mismatch (m : PluginMetadata) (metadataContent : String)
    (fileExists : String → Bool) (dirTree : String → Option FileTree)
    (h : m.plugin_package_name ≠ pyReplace m.name " " "_") :
    package_plugin_trace m metadataContent fileExists dirTree
      = ([], some (nameMismatchMsg m.plugin_package_name (pyReplace m.name " " "_"))) := by
  simp only [package_plugin_trace]
  rw [if_pos h]

/-- Concrete metadata with a package-name mismatch (C3 witness). -/
def mC3 : PluginMetadata :=
  ⟨"Other", [], [], "i18n", [], [], "My Plugin", "1.0", "c", "d", "3.28",
   "Auth", "auth@example.com", "file:///srv/repo"⟩

theorem c3_witness :
    mC3.plugin_package_name ≠ pyReplace mC3.name " " "_"
    ∧ package_plugin_trace mC3 "name=My Plugin\n" (fun _ => false) (fun _ => none)
      = ([], some (nameMismatchMsg mC3.plugin_package_name (pyReplace mC3.name " " "_"))) :=
  ⟨by decide,
   c3_package_plugin_name_mismatch mC3 "name=My Plugin\n" (fun _ => false) (fun _ => none)
     (by decide)⟩

/-! ## Claim C10 (amended) -/

/-- Claim C10 (amended): for a `download_url_base` whose parsed scheme is
not `file`, `update_repository_file` raises a `ReleaseScriptError` whose
message names the required `file://` scheme before creating any directory
or manifest file, and `package_plugin` raises a `ReleaseScriptError` before
creating any archive — with the `file://` message whenever the package-name
validation that precedes the URL check passes (otherwise the name-mismatch
error is raised first, still before any archive is created). -/
theorem c10_scheme_error_before_effects (m : PluginMetadata) (existing : Option XElem)
    (metadataContent : String) (fileExists : String → Bool)
    (dirTree : String → Option FileTree)
    (h : pyUrlScheme m.url_base ≠ "file") :
    update_repository_file_trace m existing = ([], some fileSchemeMsg)
    ∧ strIn "file://" fileSchemeMsg = true
    ∧ (package_plugin_trace m metadataContent fileExists dirTree).1 = []
    ∧ (package_plugin_trace m metadataContent fileExists dirTree).2.isSome = true
    ∧ (m.plugin_package_name = pyReplace m.name " " "_" →
        package_plugin_trace m metadataContent fileExists dirTree
          = ([], some fileSchemeMsg)) := by
  have hurl : file_url_to_path m.url_base = Except.error fileSchemeMsg := by
    simp only [file_url_to_path]
    rw [if_pos h]
  have hpkg : package_plugin_trace m metadataContent fileExists dirTree
      = if m.plugin_package_name ≠ pyReplace m.name " " "_" then
          ([], some (nameMismatchMsg m.plugin_package_name (pyReplace m.name " " "_")))
        else ([], some fileSchemeMsg) := by
    simp only [package_plugin_trace]
    by_cases hm : m.plugin_package_name ≠ pyReplace m.name " " "_"
    · rw [if_pos hm, if_pos hm]
    · rw [if_neg hm, if_neg hm, hurl]
  refine ⟨?_, by decide, ?_, ?_, ?_⟩
  · simp only [update_repository_file_trace]
    rw [hurl]
  · rw [hpkg]
    by_cases hm : m.plugin_package_name ≠ pyReplace m.name " " "_"
    · rw [if_pos hm]
    · rw [if_neg hm]
  · rw [hpkg]
    by_cases hm : m.plugin_package_name ≠ pyReplace m.name " " "_"
    · rw [if_pos hm]; rfl
    · rw [if_neg hm]; rfl
  · intro hm
    rw [hpkg, if_neg (fun hh => hh hm)]

/-- Concrete metadata with an `http` URL and a package-name mismatch: the
counterexample to C10 as stated (the raised message does not name the
`file://` scheme). -/
def mC10 : PluginMetadata :=
  ⟨"Other", [], [], "i18n", [], [], "My Plugin", "1.0", "c", "d", "3.28",
   "Auth", "auth@example.com", "http://server/repo"⟩

/-- Claim C10, counterexample to the claim as stated: with a non-`file`
URL scheme and a mismatched package name, `package_plugin` raises the
name-mismatch error, whose message does not name the `file://` scheme. -/
theorem c10_counterexample :
    pyUrlScheme mC10.url_base ≠ "file"
    ∧ (package_plugin_trace mC10 "" (fun _ => false) (fun _ => none)).2
        = some (nameMismatchMsg "Other" "My_Plugin")
    ∧ strIn "file://" (nameMismatchMsg "Other" "My_Plugin") = false :=
  ⟨by decide, by decide, by decide⟩

/-- Concrete metadata with an `http` URL and a matching package name
(C10 witness). -/
def mC10w : PluginMetadata :=
  ⟨"My_Plugin", [], [], "i18n", [], [], "My Plugin", "1.0", "c", "d", "3.28",
   "Auth", "auth@example.com", "http://server/repo"⟩

theorem c10_witness :
    pyUrlScheme mC10w.url_base ≠ "file"
    ∧ update_repository_file_trace mC10w none = ([], some fileSchemeMsg)
    ∧ package_plugin_trace mC10w "" (fun _ => false) (fun _ => none)
        = ([], some fileSchemeMsg) :=
  ⟨by decide,
   (c10_scheme_error_before_effects mC10w none "" (fun _ => false) (fun _ => none)
     (by decide)).1,
   (c10_scheme_error_before_effects mC10w none "" (fun _ => false) (fun _ => none)
     (by decide)).2.2.2.2 (by decide)⟩

/-! ## Lemmas and claim C8: `_add_files_to_zip` -/

theorem add_files_meta_mem (files : List String) (dir clean : String)
    (ex : String → Bool) (h : "metadata.txt" ∈ files) :
    (pathJoin dir "metadata.txt", ZipSrc.literal clean)
      ∈ (add_files_to_zip files dir clean ex).1 := by
  induction files with
  | nil => simp at h
  | cons f fs ih =>
    by_cases hf : f = "metadata.txt"
    · subst hf
      simp [add_files_to_zip]
    · simp only [add_files_to_zip, if_neg hf]
      rcases List.mem_cons.mp h with h1 | h2
    

      · exact absurd h1.symm hf
      · by_cases he : ex f = true
        · simp only [if_pos he]
          exact List.mem_cons_of_mem _ (ih h2)
        · simp only [if_neg he]
          exact ih h2

theorem add_files_disk_mem (files : List String) (dir clean f : String)
    (ex : String → Bool) (hf : f ∈ files) (hne : f ≠ "metadata.txt")
    (he : ex f = true) :
    (pathJoin dir f, ZipSrc.fromDisk f) ∈ (add_files_to_zip files dir clean ex).1 := by
  induction files with
  | nil => simp at hf
  | cons g fs ih =>
    rcases List.mem_cons.mp hf with h1 | h2
    · subst h1
      simp only [add_files_to_zip, if_neg hne, if_pos he]
      exact List.mem_cons_self _ _
    · simp only [add_files_to_zip]
      by_cases hg : g = "metadata.txt"
      · simp only [if_pos hg]
        exact List.mem_cons_of_mem _ (ih h2)
      · simp only [if_neg hg]
        by_cases hge : ex g = true
        · simp only [if_pos hge]
          exact List.mem_cons_of_mem _ (ih h2)
        · simp only [if_neg hge]
          exact ih h2

theorem add_files_warned (files : List String) (dir clean f : String)
    (ex : String → Bool) (hf : f ∈ files) (hne : f ≠ "metadata.txt")
    (he : ex f = false) :
    f ∈ (add_files_to_zip files dir clean ex).2 := by
  induction files with
  | nil => simp at hf
  | cons g fs ih =>
    rcases List.mem_cons.mp hf with h1 | h2
    · subst h1
      simp only [add_files_to_zip, if_neg hne,
        if_neg (by simp [he] : ¬ ex f = true)]
      exact List.mem_cons_self _ _
    · simp only [add_files_to_zip]
      by_cases hg : g = "metadata.txt"
      · simp only [if_pos hg]
        exact ih h2
      · simp only [if_neg hg]
        by_cases hge : ex g = true
        · simp only [if_pos hge]
          exact ih h2
        · simp only [if_neg hge]
          exact List.mem_cons_of_mem _ (ih h2)

theorem add_files_missing_never_added (files : List String) (dir clean f : String)
    (ex : String → Bool) (he : ex f = false) (arc : String) :
    (arc, ZipSrc.fromDisk f) ∉ (add_files_to_zip files dir clean ex).1 := by
  induction files with
  | nil => simp [add_files_to_zip]
  | cons g fs ih =>
    simp only [add_files_to_zip]
    by_cases hg : g = "metadata.txt"
    · simp only [if_pos hg]
      intro hmem
      rcases List.mem_cons.mp hmem with h1 | h2
      · exact ZipSrc.noConfusion (Prod.ext_iff.mp h1).2
      · exact ih h2
    · simp only [if_neg hg]
      by_cases hge : ex g = true
      · simp only [if_pos hge]
        intro hmem
        rcases List.mem_cons.mp hmem with h1 | h2
        · have hfg : f = g := ZipSrc.fromDisk.inj (Prod.ext_iff.mp h1).2
          rw [hfg, hge] at he
          exact Bool.noConfusion he
        · exact ih h2
      · simp only [if_neg hge]
        exact ih

theorem add_files_meta_never_from_disk (files : List String) (dir clean : String)
    (ex : String → Bool) (arc : String) :
    (arc, ZipSrc.fromDisk "metadata.txt") ∉ (add_files_to_zip files dir clean ex).1 := by
  induction files with
  | nil => simp [add_files_to_zip]
  | cons g fs ih =>
    simp only [add_files_to_zip]
    by_cases hg : g = "metadata.txt"
    · simp only [if_pos hg]
      intro hmem
      rcases List.mem_cons.mp hmem with h1 | h2
      · exact ZipSrc.noConfusion (Prod.ext_iff.mp h1).2
      · exact ih h2
    · simp only [if_neg hg]
      by_cases hge : ex g = true
      · simp only [if_pos hge]
        intro hmem
        rcases List.mem_cons.mp hmem with h1 | h2
        · exact hg (ZipSrc.fromDisk.inj (Prod.ext_iff.mp h1).2).symm
        · exact ih h2
      · simp only [if_neg hge]
        exact ih

/-- Claim C8: each listed file that exists on disk is added to the archive
at `<packageRootName>/<relative path>`; the `metadata.txt` entry is written
from the rewritten in-memory content (never from the file on disk); each
listed file that does not exist is skipped with a warning, with the rest of
the run unaffected (the traversal is total — no error path exists in
`_add_files_to_zip`). -/
theorem c8_add_files_to_zip_behaviour (files : List String) (dir clean : String)
    (ex : String → Bool) :
    (∀ f ∈ files, f = "metadata.txt" →
        (pathJoin dir "metadata.txt", ZipSrc.literal clean)
          ∈ (add_files_to_zip files dir clean ex).1)
    ∧ (∀ f ∈ files, f ≠ "metadata.txt" → ex f = true →
        (pathJoin dir f, ZipSrc.fromDisk f) ∈ (add_files_to_zip files dir clean ex).1)
    ∧ (∀ f ∈ files, f ≠ "metadata.txt" → ex f = false →
        f ∈ (add_files_to_zip files dir clean ex).2)
    ∧ (∀ f, ex f = false →
        ∀ arc, (arc, ZipSrc.fromDisk f) ∉ (add_files_to_zip files dir clean ex).1)
    ∧ (∀ arc, (arc, ZipSrc.fromDisk "metadata.txt")
        ∉ (add_files_to_zip files dir clean ex).1) :=
  ⟨fun _ hf hmeta => add_files_meta_mem files dir clean ex (hmeta ▸ hf),
   fun f hf hne he => add_files_disk_mem files dir clean f ex hf hne he,
   fun f hf hne he => add_files_warned files dir clean f ex hf hne he,
   fun f he arc => add_files_missing_never_added files dir clean f ex he arc,
   fun arc => add_files_meta_never_from_disk files dir clean ex arc⟩

theorem c8_witness :
    (pathJoin "My_Plugin" "metadata.txt", ZipSrc.literal "name=My Plugin\n")
      ∈ (add_files_to_zip ["metadata.txt", "missing.txt", "icon.png"] "My_Plugin"
          "name=My Plugin\n" (fun f => f == "icon.png")).1
    ∧ (pathJoin "My_Plugin" "icon.png", ZipSrc.fromDisk "icon.png")
      ∈ (add_files_to_zip ["metadata.txt", "missing.txt", "icon.png"] "My_Plugin"
          "name=My Plugin\n" (fun f => f == "icon.png")).1
    ∧ "missing.txt" ∈ (add_files_to_zip ["metadata.txt", "missing.txt", "icon.png"]
          "My_Plugin" "name=My Plugin\n" (fun f => f == "icon.png")).2
    ∧ ∀ arc, (arc, ZipSrc.fromDisk "missing.txt")
        ∉ (add_files_to_zip ["metadata.txt", "missing.txt", "icon.png"] "My_Plugin"
            "name=My Plugin\n" (fun f => f == "icon.png")).1 :=
  ⟨(c8_add_files_to_zip_behaviour _ "My_Plugin" "name=My Plugin\n" _).1
     "metadata.txt" (by decide) rfl,
   (c8_add_files_to_zip_behaviour _ "My_Plugin" "name=My Plugin\n" _).2.1
     "icon.png" (by decide) (by decide) (by decide),
   (c8_add_files_to_zip_behaviour _ "My_Plugin" "name=My Plugin\n" _).2.2.1
     "missing.txt" (by decide) (by decide) (by decide),
   fun arc => (c8_add_files_to_zip_behaviour _ "My_Plugin" "name=My Plugin\n" _).2.2.2.1
     "missing.txt" (by decide) arc⟩

/-! ## Lemmas and claim C4: `_add_directories_to_zip` -/

theorem any_eq_false_iff (l : List String) (p : String → Bool) :
    l.any p = false ↔ ∀ x ∈ l, p x = false := by
  rw [Bool.eq_false_iff, Ne, List.any_eq_true]
  simp [Bool.not_eq_true]

mutual
/-- Every directory visited by `os.walk` has the walk's starting path as a
string prefix of its own path. -/
theorem osWalk_mem_prefix (path : String) (t : FileTree) (r : String)
    (fl : List String) (h : (r, fl) ∈ osWalk path t) :
    ∃ s, r.data = path.data ++ s := by
  cases t with
  | node files subs =>
    simp only [osWalk] at h
    rcases List.mem_cons.mp h with h | h
    · injection h with h1 h2
      exact ⟨[], by rw [h1, List.append_nil]⟩
    · exact walkForest_mem_prefix path subs r fl h

/-- Forest version of `osWalk_mem_prefix`. -/
theorem walkForest_mem_prefix (path : String) (f : Forest) (r : String)
    (fl : List String) (h : (r, fl) ∈ walkForest path f) :
    ∃ s, r.data = path.data ++ s := by
  cases f with
  | nil => simp [walkForest] at h
  | cons name t rest =>
    simp only [walkForest] at h
    rcases List.mem_append.mp h with h | h
    · obtain ⟨s, hs⟩ := osWalk_mem_prefix (path ++ "/" ++ name) t r fl h
      refine ⟨'/' :: (name.data ++ s), ?_⟩
      rw [hs, String.data_append, String.data_append]
      have hslash : ("/" : String).data = ['/'] := rfl
      rw [hslash]
      simp [List.append_assoc]
    · exact walkForest_mem_prefix path rest r fl h
end

/-- Membership in the written directory entries, characterised: a pair is
written iff it comes from the walk of some listed, existing directory and
passes both exclusion filters. -/
theorem mem_addDirPairs_iff (dirs excl exts : List String)
    (dirTree : String → Option FileTree) (r f : String) :
    (r, f) ∈ addDirPairs dirs excl exts dirTree ↔
      ∃ d t fl, d ∈ dirs ∧ dirTree d = some t ∧ (r, fl) ∈ osWalk d t ∧ f ∈ fl
        ∧ (excl.any fun e => strIn e r) = false
        ∧ (exts.any fun x => pyEndsWith f x) = false := by
  unfold addDirPairs
  rw [List.mem_flatMap]
  constructor
  · rintro ⟨d, hd, hmem⟩
    cases hdt : dirTree d with
    | none => rw [hdt] at hmem; simp at hmem
    | some t =>
      rw [hdt] at hmem
      rw [List.mem_flatMap] at hmem
      obtain ⟨rf, hrf, hmem2⟩ := hmem
      obtain ⟨r0, fl0⟩ := rf
      by_cases hex : (excl.any fun e => strIn e r0) = true
      · rw [if_pos hex] at hmem2
        simp at hmem2
      · rw [if_neg hex] at hmem2
        rw [List.mem_filterMap] at hmem2
        obtain ⟨f0, hf0, hsome⟩ := hmem2
        by_cases hxt : (exts.any fun x => pyEndsWith f0 x) = true
        · rw [if_pos hxt] at hsome
          exact absurd hsome (by simp)
        · rw [if_neg hxt] at hsome
          obtain ⟨h1, h2⟩ := Prod.ext_iff.mp (Option.some.inj hsome)
          subst h1
          subst h2
          exact ⟨d, t, fl0, hd, hdt, hrf, hf0,
            Bool.eq_false_iff.mpr hex, Bool.eq_false_iff.mpr hxt⟩
  · rintro ⟨d, t, fl, hd, hdt, hw, hf, hex, hxt⟩
    refine ⟨d, hd, ?_⟩
    rw [hdt, List.mem_flatMap]
    refine ⟨(r, fl), hw, ?_⟩
    rw [if_neg (by simp [hex])]
    rw [List.mem_filterMap]
    exact ⟨f, hf, by rw [if_neg (by simp [hxt])]⟩

/-- Claim C4: a file encountered during the recursive walk of a listed
directory is written to the archive iff its containing directory's path
contains none of the excluded directory-name substrings and its file name
ends with none of the excluded extensions; consequently no entry comes from
the subtree rooted at any directory whose path contains an excluded
substring. -/
theorem c4_add_directories_filter (dirs excl exts : List String)
    (dirTree : String → Option FileTree) (d : String) (t : FileTree)
    (r : String) (fl : List String) (f : String)
    (hd : d ∈ dirs) (ht : dirTree d = some t)
    (hw : (r, fl) ∈ osWalk d t) (hf : f ∈ fl) :
    ((r, f) ∈ addDirPairs dirs excl exts dirTree ↔
      (∀ e ∈ excl, strIn e r = false) ∧ (∀ x ∈ exts, pyEndsWith f x = false))
    ∧ (∀ e ∈ excl, strIn e r = true →
        ∀ sub r' fl' f', (r', fl') ∈ osWalk r sub → f' ∈ fl' →
          (r', f') ∉ addDirPairs dirs excl exts dirTree) := by
  constructor
  · rw [mem_addDirPairs_iff]
    constructor
    · rintro ⟨d0, t0, fl0, -, -, -, -, hex, hxt⟩
      exact ⟨(any_eq_false_iff excl _).mp hex, (any_eq_false_iff exts _).mp hxt⟩
    · rintro ⟨h1, h2⟩
      exact ⟨d, t, fl, hd, ht, hw, hf,
        (any_eq_false_iff excl _).mpr h1, (any_eq_false_iff exts _).mpr h2⟩
  · rintro e he hcontains sub r' fl' f' hw' hf' hmem
    rw [mem_addDirPairs_iff] at hmem
    obtain ⟨-, -, -, -, -, -, -, hex, -⟩ := hmem
    obtain ⟨s, hs⟩ := osWalk_mem_prefix r sub r' fl' hw'
    have htrue : strIn e r' = true := strIn_of_data_append e r r' s hs hcontains
    have hfalse : strIn e r' = false := (any_eq_false_iff excl _).mp hex e he
    rw [htrue] at hfalse
    exact Bool.noConfusion hfalse

/-- Concrete directory tree used to witness C4: `src` contains two files,
an excluded `__pycache__` subtree and a regular `ok` subtree. -/
def treeC4 : FileTree :=
  FileTree.node ["a.py", "b.pyc"]
    (Forest.cons "__pycache__" (FileTree.node ["x.py"] Forest.nil)
      (Forest.cons "ok" (FileTree.node ["c.py"] Forest.nil) Forest.nil))

/-- The disk layout used to witness C4. -/
def dirTreeC4 : String → Option FileTree :=
  fun d => if d = "src" then some treeC4 else none

theorem c4_witness :
    "src" ∈ ["src"]
    ∧ dirTreeC4 "src" = some treeC4
    ∧ ("src", ["a.py", "b.pyc"]) ∈ osWalk "src" treeC4
    ∧ "a.py" ∈ ["a.py", "b.pyc"]
    ∧ (("src", "a.py") ∈ addDirPairs ["src"] ["__pycache__"] [".pyc"] dirTreeC4 ↔
        (∀ e ∈ ["__pycache__"], strIn e "src" = false)
        ∧ (∀ x ∈ [".pyc"], pyEndsWith "a.py" x = false))
    ∧ ("src/__pycache__", ["x.py"]) ∈ osWalk "src" treeC4
    ∧ strIn "__pycache__" "src/__pycache__" = true
    ∧ ("src/__pycache__", "x.py")
        ∉ addDirPairs ["src"] ["__pycache__"] [".pyc"] dirTreeC4 :=
  ⟨by decide, rfl, by decide, by decide,
   (c4_add_directories_filter ["src"] ["__pycache__"] [".pyc"] dirTreeC4 "src" treeC4
     "src" ["a.py", "b.pyc"] "a.py" (by decide) rfl (by decide) (by decide)).1,
   by decide, by decide,
   (c4_add_directories_filter ["src"] ["__pycache__"] [".pyc"] dirTreeC4 "src" treeC4
     "src/__pycache__" ["x.py"] "x.py" (by decide) rfl (by decide) (by decide)).2
     "__pycache__" (by decide) (by decide)
     (FileTree.node ["x.py"] Forest.nil) "src/__pycache__" ["x.py"] "x.py"
     (by decide) (by decide)⟩

/-! ## Lemmas and claim C9: `_get_clean_metadata_content` -/

/-- A line body is free of line-break characters. -/
def bodyOkB (b : List Char) : Bool := b.all fun c => !pyIsLineBreakChar c

/-- Is a REVERSED character list a well-formed terminated line (break-free
body followed by one line-break sequence)? -/
def terminatedRevOkB : List Char → Bool
  | [] => false
  | [c] => pyIsLineBreakChar c
  | c :: c2 :: rest =>
      if c = '\n' ∧ c2 = '\r' then bodyOkB rest
      else pyIsLineBreakChar c && bodyOkB (c2 :: rest)

/-- Is a line a break-free body followed by exactly one line-break
sequence? -/
def terminatedLineOkB (l : List Char) : Bool := terminatedRevOkB l.reverse

/-- Does the line end in a bare carriage return? -/
def endsWithCRB (l : List Char) : Bool :=
  match l.reverse with
  | [] => false
  | c :: _ => c == '\r'

/-- Does the line start with a line feed? -/
def startsWithLFB : List Char → Bool
  | [] => false
  | c :: _ => c == '\n'

/-- Well-formedness of a decomposition of a text into kept-ends lines:
every line but the last is terminated, the last is terminated or a
non-empty unterminated body, and a line ending in a bare `\r` is never
followed by a line starting with `\n` (which would merge into one CRLF
boundary). -/
def wfLinesB : List (List Char) → Bool
  | [] => true
  | [l] => terminatedLineOkB l || (bodyOkB l && !l.isEmpty)
  | l :: l2 :: rest =>
      terminatedLineOkB l && (!endsWithCRB l || !startsWithLFB l2) && wfLinesB (l2 :: rest)

theorem bodyOkB_reverse (l : List Char) : bodyOkB l.reverse = bodyOkB l := by
  simp [bodyOkB, List.all_eq_true]

theorem string_mk_data (s : String) : (⟨s.data⟩ : String) = s := by
  cases s
  rfl

theorem startsWithLFB_append (a b : List Char) (h : a ≠ []) :
    startsWithLFB (a ++ b) = startsWithLFB a := by
  cases a with
  | nil => exact absurd rfl h
  | cons x a' => simp [startsWithLFB, List.cons_append]

theorem endsWithCRB_append_cr (b : List Char) : endsWithCRB (b ++ ['\r']) = true := by
  simp [endsWithCRB, List.reverse_append]

theorem terminatedLineOkB_ne_nil (l : List Char) (h : terminatedLineOkB l = true) :
    l ≠ [] := by
  intro hnil
  subst hnil
  exact Bool.noConfusion h

/-- Decomposition of a well-formed terminated line into its break-free body
and its line-break sequence. -/
theorem terminated_decomp (l : List Char) (h : terminatedLineOkB l = true) :
    ∃ b e, l = b ++ e ∧ bodyOkB b = true ∧
      (e = ['\r', '\n'] ∨ ∃ c, e = [c] ∧ pyIsLineBreakChar c = true) := by
  unfold terminatedLineOkB at h
  have hl : l = l.reverse.reverse := (List.reverse_reverse l).symm
  rcases hrev : l.reverse with _ | ⟨c, rest⟩
  · rw [hrev] at h
    exact absurd h (by simp [terminatedRevOkB])
  · rw [hrev] at h
    rcases rest with _ | ⟨c2, rest2⟩
    · rw [terminatedRevOkB] at h
      refine ⟨[], [c], ?_, rfl, Or.inr ⟨c, rfl, h⟩⟩
      rw [hl, hrev]
      simp
    · rw [terminatedRevOkB] at h
      by_cases hcc : c = '\n' ∧ c2 = '\r'
      · rw [if_pos hcc] at h
        obtain ⟨h1, h2⟩ := hcc
        subst h1
        subst h2
        refine ⟨rest2.reverse, ['\r', '\n'], ?_, ?_, Or.inl rfl⟩
        · rw [hl, hrev]
          simp
        · rw [bodyOkB_reverse]
          exact h
      · rw [if_neg hcc] at h
        obtain ⟨h1, h2⟩ := Bool.and_eq_true _ _ |>.mp h
        refine ⟨(c2 :: rest2).reverse, [c], ?_, ?_, Or.inr ⟨c, rfl, h1⟩⟩
        · rw [hl, hrev]
          simp
        · rw [bodyOkB_reverse]
          exact h2

theorem splitAux_cr (rest acc : List Char) (h : startsWithLFB rest = false) :
    splitLinesAux ('\r' :: rest) acc = (acc.reverse ++ ['\r']) :: splitLinesAux rest [] := by
  apply splitLinesAux.eq_3
  intro rest1 hr
  rw [hr] at h
  simp [startsWithLFB] at h

theorem splitAux_brk (c : Char) (rest acc : List Char) (hc : c ≠ '\r')
    (hbrk : pyIsLineBreakChar c = true) :
    splitLinesAux (c :: rest) acc = (acc.reverse ++ [c]) :: splitLinesAux rest [] := by
  rw [splitLinesAux.eq_4 acc c rest (fun _ h1 _ => hc h1) (fun h1 => hc h1), if_pos hbrk]

theorem splitAux_plain (c : Char) (rest acc : List Char) (hc : c ≠ '\r')
    (hbrk : pyIsLineBreakChar c = false) :
    splitLinesAux (c :: rest) acc = splitLinesAux rest (c :: acc) := by
  rw [splitLinesAux.eq_4 acc c rest (fun _ h1 _ => hc h1) (fun h1 => hc h1),
      if_neg (by simp [hbrk])]

theorem bodyOkB_cons (x : Char) (b : List Char) (h : bodyOkB (x :: b) = true) :
    pyIsLineBreakChar x = false ∧ bodyOkB b = true := by
  simpa [bodyOkB, Bool.not_eq_true'] using h

/-- Splitting peels off one well-formed terminated line. -/
theorem splitAux_peel (b e rest acc : List Char)
    (hb : bodyOkB b = true)
    (he : e = ['\r', '\n'] ∨ ∃ c, e = [c] ∧ pyIsLineBreakChar c = true ∧
            (c = '\r' → startsWithLFB rest = false)) :
    splitLinesAux (b ++ (e ++ rest)) acc
      = (acc.reverse ++ (b ++ e)) :: splitLinesAux rest [] := by
  induction b generalizing acc with
  | nil =>
    simp only [List.nil_append]
    rcases he with he | ⟨c, hec, hbrk, hcr⟩
    · subst he
      show splitLinesAux ('\r' :: '\n' :: rest) acc = _
      rw [splitLinesAux.eq_2]
    · subst hec
      by_cases hc : c = '\r'
      · subst hc
        show splitLinesAux ('\r' :: rest) acc = _
        rw [splitAux_cr rest acc (hcr rfl)]
      · show splitLinesAux (c :: rest) acc = _
        rw [splitAux_brk c rest acc hc hbrk]
  | cons x b' ih =>
    obtain ⟨hx, hb'⟩ := bodyOkB_cons x b' hb
    have hxr : x ≠ '\r' := by
      intro hh
      subst hh
      rw [show pyIsLineBreakChar '\r' = true from rfl] at hx
      exact Bool.noConfusion hx
    rw [List.cons_append, splitAux_plain x _ acc hxr hx, ih (x :: acc) hb']
    simp

/-- Splitting keeps a final non-empty unterminated body as one line. -/
theorem splitAux_unterminated (b acc : List Char) (hb : bodyOkB b = true)
    (hne : acc.reverse ++ b ≠ []) :
    splitLinesAux b acc = [acc.reverse ++ b] := by
  induction b generalizing acc with
  | nil =>
    have hacc : acc ≠ [] := by
      intro h
      exact hne (by simp [h])
    rw [splitLinesAux.eq_1, if_neg (by simpa using hacc)]
    simp
  | cons x b' ih =>
    obtain ⟨hx, hb'⟩ := bodyOkB_cons x b' hb
    have hxr : x ≠ '\r' := by
      intro hh
      subst hh
      rw [show pyIsLineBreakChar '\r' = true from rfl] at hx
      exact Bool.noConfusion hx
    have hne' : (x :: acc).reverse ++ b' ≠ [] := by
      intro hh
      have := congrArg List.length hh
      simp at this
    rw [splitAux_plain x b' acc hxr hx, ih (x :: acc) hb' hne']
    simp

theorem wfLinesB_head_ne_nil (x : List Char) (xs : List (List Char))
    (h : wfLinesB (x :: xs) = true) : x ≠ [] := by
  cases xs with
  | nil =>
    rcases (by simpa [wfLinesB] using h :
        terminatedLineOkB x = true ∨ (bodyOkB x = true ∧ ¬ x = [])) with h1 | ⟨-, h2⟩
    · exact terminatedLineOkB_ne_nil x h1
    · exact h2
  | cons y ys =>
    have h1 : terminatedLineOkB x = true
        ∧ (endsWithCRB x = false ∨ startsWithLFB y = false)
        ∧ wfLinesB (y :: ys) = true := by
      simpa [wfLinesB, Bool.and_assoc] using h
    exact terminatedLineOkB_ne_nil x h1.1

/-- `splitlines(keepends=True)` inverts joining a well-formed line list. -/
theorem splitLines_strJoin (lines : List String)
    (h : wfLinesB (lines.map String.data) = true) :
    splitLinesKeepends (strJoin lines) = lines := by
  induction lines with
  | nil => rfl
  | cons l ls ih =>
    cases ls with
    | nil =>
      have hdata : (strJoin [l]).data = l.data := by
        show (l ++ strJoin []).data = l.data
        rw [String.data_append]
        simp [strJoin]
      unfold splitLinesKeepends
      rw [hdata]
      rcases (by simpa [wfLinesB] using h :
          terminatedLineOkB l.data = true
            ∨ (bodyOkB l.data = true ∧ ¬ l.data = [])) with h1 | ⟨h2, h3⟩
      · obtain ⟨b, e, hbe, hbody, hdisj⟩ := terminated_decomp l.data h1
        have hsplit : splitLinesAux l.data [] = [l.data] := by
          rw [hbe, show b ++ e = b ++ (e ++ []) by simp,
              splitAux_peel b e [] [] hbody ?_]
          · simp [splitLinesAux]
          · rcases hdisj with hd | ⟨c, hec, hbrk⟩
            · exact Or.inl hd
            · exact Or.inr ⟨c, hec, hbrk, fun _ => rfl⟩
        rw [hsplit]
        simp [string_mk_data]
      · rw [splitAux_unterminated l.data [] h2 (by simpa using h3)]
        simp [string_mk_data]
    | cons l2 ls2 =>
      have hwf : terminatedLineOkB l.data = true
          ∧ (endsWithCRB l.data = false ∨ startsWithLFB l2.data = false)
          ∧ wfLinesB (l2.data :: ls2.map String.data) = true := by
        simpa [wfLinesB, Bool.and_assoc] using h
      obtain ⟨hterm, hadj, hrest⟩ := hwf
      have hne2 : l2.data ≠ [] :=
        wfLinesB_head_ne_nil l2.data (ls2.map String.data) hrest
      obtain ⟨b, e, hbe, hbody, hdisj⟩ := terminated_decomp l.data hterm
      have hjoin : (strJoin (l :: l2 :: ls2)).data
          = l.data ++ (strJoin (l2 :: ls2)).data := by
        show (l ++ strJoin (l2 :: ls2)).data = _
        rw [String.data_append]
      have htail : (strJoin (l2 :: ls2)).data = l2.data ++ (strJoin ls2).data := by
        show (l2 ++ strJoin ls2).data = _
        rw [String.data_append]
      unfold splitLinesKeepends
      rw [hjoin, hbe, List.append_assoc,
          splitAux_peel b e ((strJoin (l2 :: ls2)).data) [] hbody ?side]
      · have ihh := ih (by simpa using hrest)
        unfold splitLinesKeepends at ihh
        simp only [List.map, List.reverse_nil, List.nil_append, ← hbe, string_mk_data]
        rw [ihh]
      case side =>
        rcases hdisj with hd | ⟨c, hec, hbrk⟩
        · exact Or.inl hd
        · refine Or.inr ⟨c, hec, hbrk, fun hcr => ?_⟩
          subst hcr
          subst hec
          have hcrb : endsWithCRB l.data = true := by
            rw [hbe]
            exact endsWithCRB_append_cr b
          have hlf : startsWithLFB l2.data = false := by
            rcases hadj with ha | ha
            · rw [hcrb] at ha
              exact Bool.noConfusion ha
            · exact ha
          rw [htail, startsWithLFB_append l2.data (strJoin ls2).data hne2]
          exact hlf

/-- Claim C9: `_get_clean_metadata_content` replaces every line whose
whitespace-stripped form starts with `name=` — wherever it occurs in the
file — by `name=<release name>` terminated with a line feed regardless of
the original ending, and returns every other line byte-for-byte
unchanged. -/
theorem c9_get_clean_metadata_content (plugin_name : String) (lines : List String)
    (h : wfLinesB (lines.map String.data) = true) :
    get_clean_metadata_content plugin_name (strJoin lines)
      = strJoin (lines.map fun line =>
          if pyStartsWith (pyStrip line) "name=" then "name=" ++ plugin_name ++ "\n"
          else line) := by
  unfold get_clean_metadata_content
  rw [splitLines_strJoin lines h]

theorem c9_witness :
    wfLinesB (["[general]\r\n", "name=Old Name (dev)\r\n", " name=Indented\n",
      "version=1.0"].map String.data) = true
    ∧ get_clean_metadata_content "Demo"
        (strJoin ["[general]\r\n", "name=Old Name (dev)\r\n", " name=Indented\n",
          "version=1.0"])
      = strJoin (["[general]\r\n", "name=Old Name (dev)\r\n", " name=Indented\n",
          "version=1.0"].map fun line =>
            if pyStartsWith (pyStrip line) "name=" then "name=" ++ "Demo" ++ "\n"
            else line) :=
  ⟨by decide,
   c9_get_clean_metadata_content "Demo"
     ["[general]\r\n", "name=Old Name (dev)\r\n", " name=Indented\n", "version=1.0"]
     (by decide)⟩
